import Mathlib

/-!
Verification development for the sudorix solver core.

The definitions below are a shallow embedding of the C++ sources:
  * `src/inc/utils.hpp`, `src/src/SudokuCell.cpp`, `src/src/SudokuBoard.cpp`
    (the same code also appears inlined in `src/src/solver.cpp`);
  * `src/src/Event.cpp` / `src/src/EventQueue.cpp` and the copies in
    `src/src/solver.cpp` (single-operation events with a dedup set);
  * a model, written from the specification, of the multi-operation event
    drain/step protocol declared by `src/inc/Event.hpp` and
    `src/inc/solver.hpp` but whose implementation is not in the sources.

Machine integers are embedded as `Nat`; 16-bit truncation is written as an
explicit `% 65536` where the C++ casts to `uint16_t`.  Boards are total
functions `Nat → Cell`; only indices `0..80` are ever read by the embedded
operations, matching the C++ fixed array of 81 cells.
-/

-- =========================================================
-- Bitmask helpers (src/inc/utils.hpp)
-- =========================================================

/-- Embeds `digitToBit`: `(uint16_t)(1u << (d - 1u))`.  The cast to
`uint16_t` is the explicit `% 65536`. -/
def digitToBit (d : Nat) : Nat := (1 <<< (d - 1)) % 65536

/-- Bitwise complement on 16 bits: `(uint16_t)(~m)` for `m < 65536`. -/
def complement16 (m : Nat) : Nat := 65535 ^^^ m

/-- The loop of the portable bit count, with an explicit structural fuel
(the loop runs at most as many iterations as the mask has bits, so fuel
`m` always suffices). -/
def bitCountAux : Nat → Nat → Nat
  | 0, _ => 0
  | f + 1, m => if m = 0 then 0 else m % 2 + bitCountAux f (m / 2)

/-- Number of one bits, as computed by the portable loop in `countBits9`
(`while (mask) { c += mask & 1; mask >>= 1; }`). -/
def bitCount (m : Nat) : Nat := bitCountAux m m

/-- Embeds `countBits9`: the mask is first clipped to its low 9 bits. -/
def countBits9 (m : Nat) : Nat := bitCount (m &&& 511)

/-- Embeds the portable branch of `bitToDigitSingle`: the first digit
`d ∈ 1..9` whose bit is set, `0` if none is. -/
def bitToDigitSingle (m : Nat) : Nat :=
  (((List.range 9).map (· + 1)).find? fun d => m &&& digitToBit d != 0).getD 0

-- =========================================================
-- Unit index tables (src/inc/utils.hpp)
-- =========================================================

/-- Embeds `idxRow`. -/
def idxRow (idx : Nat) : Nat := idx / 9

/-- Embeds `idxCol`. -/
def idxCol (idx : Nat) : Nat := idx % 9

/-- Embeds `idxBox`. -/
def idxBox (idx : Nat) : Nat := (idxRow idx / 3) * 3 + idxCol idx / 3

/-- Embeds the `ROW_CELLS` table: `ROW_CELLS[r][k] = 9*r + k`, which is
exactly the table written out in `utils.hpp`. -/
def rowCell (r k : Nat) : Nat := 9 * r + k

/-- Embeds the `COL_CELLS` table: `COL_CELLS[c][k] = 9*k + c`. -/
def colCell (c k : Nat) : Nat := 9 * k + c

/-- Embeds the `BOX_CELLS` table:
`BOX_CELLS[b][k] = 9*((b/3)*3 + k/3) + (b%3)*3 + k%3`. -/
def boxCell (b k : Nat) : Nat := 9 * ((b / 3) * 3 + k / 3) + (b % 3) * 3 + k % 3

-- =========================================================
-- SudokuCell (src/src/SudokuCell.cpp)
-- =========================================================

/-- One grid square: `value` (0 = empty, 1..9) and the stored 9-bit
candidate mask, as in `SudokuCell`. -/
structure Cell where
  value : Nat
  candMask : Nat
deriving DecidableEq, Repr

/-- Embeds `SudokuCell::SudokuCell()`: zero value, zero mask. -/
def Cell.init : Cell := ⟨0, 0⟩

/-- Embeds `SudokuCell::setValue`: stores the value and, when it is
nonzero, collapses the stored mask to the digit's bit. -/
def Cell.setValue (c : Cell) (digit : Nat) : Cell :=
  { value := digit
    candMask := if digit ≠ 0 then digitToBit digit else c.candMask }

/-- Embeds `SudokuCell::getCandidateMask`: the stored mask clipped to 9
bits. -/
def Cell.getCandidateMask (c : Cell) : Nat := c.candMask &&& 511

/-- Embeds `SudokuCell::setCandidateMask`. -/
def Cell.setCandidateMask (c : Cell) (m : Nat) : Cell :=
  { c with candMask := m &&& 511 }

/-- Embeds `SudokuCell::hasCandidate`. -/
def Cell.hasCandidate (c : Cell) (digit : Nat) : Bool :=
  c.getCandidateMask &&& digitToBit digit != 0

/-- Embeds `SudokuCell::disableCandidate` (the store; the C++ also
returns whether the mask changed, which no caller in the sources uses).
`before & ~bit` is `before &&& complement16 bit` here. -/
def Cell.disableCandidate (c : Cell) (digit : Nat) : Cell :=
  { c with candMask := c.getCandidateMask &&& complement16 (digitToBit digit) }

/-- Embeds `SudokuCell::getSingleCandidate`. -/
def Cell.getSingleCandidate (c : Cell) : Nat :=
  if countBits9 c.getCandidateMask = 1 then bitToDigitSingle c.getCandidateMask else 0

-- =========================================================
-- SudokuBoard state (src/src/SudokuBoard.cpp)
-- =========================================================

/-- The 81-cell board.  Indices `0..80` are the cells; the embedding uses a
total function on `Nat` and the embedded operations only touch `0..80`. -/
def Board : Type := Nat → Cell

/-- A board of default-constructed cells (`SudokuBoard()` with
`SudokuCell()`). -/
def emptyBoard : Board := fun _ => Cell.init

/-- Overwrite one cell. -/
def setCellAt (b : Board) (idx : Nat) (c : Cell) : Board :=
  fun j => if j = idx then c else b j

/-- Embeds `SudokuBoard::getValue`. -/
def getValueB (b : Board) (idx : Nat) : Nat := (b idx).value

/-- Embeds `SudokuBoard::isSolved`. -/
def isSolvedB (b : Board) (idx : Nat) : Bool := (b idx).value ≠ 0

/-- Embeds `SudokuBoard::setValue`. -/
def setValueB (b : Board) (idx digit : Nat) : Board :=
  setCellAt b idx ((b idx).setValue digit)

/-- Embeds `SudokuBoard::getCandidateMask`. -/
def getCandB (b : Board) (idx : Nat) : Nat := (b idx).getCandidateMask

/-- Embeds `SudokuBoard::setCandidateMask`. -/
def setCandB (b : Board) (idx m : Nat) : Board :=
  setCellAt b idx ((b idx).setCandidateMask m)

/-- Embeds `SudokuBoard::hasCandidate`. -/
def hasCandB (b : Board) (idx digit : Nat) : Bool := (b idx).hasCandidate digit

/-- Embeds `SudokuBoard::disableCandidate`. -/
def disableCandB (b : Board) (idx digit : Nat) : Board :=
  setCellAt b idx ((b idx).disableCandidate digit)

/-- Embeds `SudokuBoard::getSingleCandidate`. -/
def getSingleCandB (b : Board) (idx : Nat) : Nat := (b idx).getSingleCandidate

/-- Embeds `SudokuBoard::isCompletelySolved` (over the 81 cells). -/
def isCompletelySolvedB (b : Board) : Bool :=
  (List.range 81).all fun i => isSolvedB b i

-- =========================================================
-- Peer propagation and apply operations (src/src/SudokuBoard.cpp)
-- =========================================================

/-- One guarded disable from `autoClearPeersAfterPlacement`'s loop body:
`if (cell != idx && !isSolved(cell)) disableCandidate(cell, digit)`. -/
def clearStep (idx digit : Nat) (b : Board) (cell : Nat) : Board :=
  if cell ≠ idx ∧ ¬ isSolvedB b cell then disableCandB b cell digit else b

/-- The sequence of cells visited by `autoClearPeersAfterPlacement`: for
`k = 0..8` the row, column and box entries, in the source's order. -/
def peerSeq (idx : Nat) : List Nat :=
  (List.range 9).foldr
    (fun k acc =>
      rowCell (idxRow idx) k :: colCell (idxCol idx) k :: boxCell (idxBox idx) k :: acc)
    []

/-- Embeds `SudokuBoard::autoClearPeersAfterPlacement`: removes `digit`
from the candidates of unsolved peers, visiting cells in the loop order. -/
def autoClearPeersAfterPlacement (b : Board) (idx digit : Nat) : Board :=
  (peerSeq idx).foldl (clearStep idx digit) b

/-- Embeds `SudokuBoard::applySetValue`: set the value, then clear the
digit from unsolved peers. -/
def applySetValue (b : Board) (idx digit : Nat) : Board :=
  autoClearPeersAfterPlacement (setValueB b idx digit) idx digit

/-- Embeds `SudokuBoard::applyRemoveCandidate`: disable the candidate and,
if exactly one candidate remains, place it. -/
def applyRemoveCandidate (b : Board) (idx digit : Nat) : Board :=
  let b1 := disableCandB b idx digit
  let only := getSingleCandB b1 idx
  if only ≠ 0 then applySetValue b1 idx only else b1

-- =========================================================
-- Candidate recompute (SudokuBoard::_recalcAllCandidatesFromValues)
-- =========================================================

/-- Accumulator of pass 1: the three per-unit "used" masks and the board
being rewritten. -/
structure Pass1State where
  ru : Nat → Nat
  cu : Nat → Nat
  bu : Nat → Nat
  bd : Board

/-- Update one entry of a used-mask table. -/
def updMask (f : Nat → Nat) (u m : Nat) : Nat → Nat :=
  fun x => if x = u then f u ||| m else f x

/-- Pass 1 of `_recalcAllCandidatesFromValues`, over the listed cell
indices in order: build the used masks, fail on a conflicting given, and
collapse each solved cell's mask to its digit's bit.  On failure the board
mutated so far is kept, exactly as the C++ early `return false` keeps the
partially rewritten `cells`. -/
def pass1 : List Nat → Pass1State → Bool × Pass1State
  | [], st => (true, st)
  | i :: rest, st =>
    let v := getValueB st.bd i
    if v = 0 then pass1 rest st
    else if v < 1 ∨ 9 < v then (false, st)
    else
      let m := digitToBit v
      if st.ru (idxRow i) &&& m ≠ 0 then (false, st)
      else if st.cu (idxCol i) &&& m ≠ 0 then (false, st)
      else if st.bu (idxBox i) &&& m ≠ 0 then (false, st)
      else
        pass1 rest
          { ru := updMask st.ru (idxRow i) m
            cu := updMask st.cu (idxCol i) m
            bu := updMask st.bu (idxBox i) m
            bd := setCandB st.bd i m }

/-- Pass 2 of `_recalcAllCandidatesFromValues`: give every empty cell the
mask `ALL & ~(rowUsed | colUsed | boxUsed)`, failing when it is zero. -/
def pass2 (ru cu bu : Nat → Nat) : List Nat → Board → Bool × Board
  | [], bd => (true, bd)
  | i :: rest, bd =>
    if isSolvedB bd i then pass2 ru cu bu rest bd
    else
      let used := ru (idxRow i) ||| cu (idxCol i) ||| bu (idxBox i)
      let allowed := 511 &&& complement16 used
      if allowed = 0 then (false, bd)
      else pass2 ru cu bu rest (setCandB bd i allowed)

/-- Embeds `SudokuBoard::_recalcAllCandidatesFromValues`: reset every
mask, then pass 1 and pass 2 over cells `0..80`.  Returns the success flag
and the (possibly partially rewritten) board. -/
def recalcAllCandidatesFromValues (b : Board) : Bool × Board :=
  let b0 : Board := fun i => if i < 81 then (b i).setCandidateMask 0 else b i
  match pass1 (List.range 81) ⟨fun _ => 0, fun _ => 0, fun _ => 0, b0⟩ with
  | (false, st) => (false, st.bd)
  | (true, st) => pass2 st.ru st.cu st.bu (List.range 81) st.bd

-- =========================================================
-- Import / export (src/src/SudokuBoard.cpp)
-- =========================================================

/-- The parse loop of `SudokuBoard::importFromString`.  `i` is the raw
character position and `t` the count of recognized symbols; as in the
source, a recognized symbol at position `i` writes `cells[i]` (the C++
performs this write even when `i ≥ 81`, stepping outside the array; the
claims below only exercise strings where `i < 81`). -/
def importGo : List Char → Nat → Nat → Board → Board × Nat
  | [], _, t, b => (b, t)
  | ch :: rest, i, t, b =>
    if '1' ≤ ch ∧ ch ≤ '9' then
      let b' := setValueB b i (ch.toNat - '0'.toNat)
      if t + 1 = 81 then (b', t + 1) else importGo rest (i + 1) (t + 1) b'
    else if ch = '0' ∨ ch = '.' then
      let b' := setValueB b i 0
      if t + 1 = 81 then (b', t + 1) else importGo rest (i + 1) (t + 1) b'
    else importGo rest (i + 1) t b

/-- Embeds `SudokuBoard::importFromString`: parse into the cells, fail
(flag `false`) when fewer than 81 symbols were recognized; otherwise run
the candidate recompute.  As in the source, the recompute's success flag
is discarded: the import reports success regardless. -/
def importFromString (b : Board) (s : List Char) : Bool × Board :=
  let (b', t) := importGo s 0 0 b
  if t < 81 then (false, b')
  else (true, (recalcAllCandidatesFromValues b').2)

/-- Embeds `SudokuBoard::exportToBuffers`: the value and (clipped)
candidate buffers. -/
def exportToBuffers (b : Board) : (Nat → Nat) × (Nat → Nat) :=
  (fun i => (b i).value, fun i => (b i).getCandidateMask)

/-- Embeds `SudokuBoard::importFromBuffers`: `setValue(values[i])` then
`setCandidateMask` with the caller's mask for empty cells and the digit's
bit for solved ones, for each of the 81 cells. -/
def importFromBuffers (b : Board) (vals cands : Nat → Nat) : Board :=
  fun i =>
    if i < 81 then
      { value := vals i
        candMask := if vals i = 0 then cands i &&& 511 else digitToBit (vals i) &&& 511 }
    else b i

-- =========================================================
-- Events (src/src/Event.cpp, src/inc/Event.hpp, src/src/solver.cpp)
-- =========================================================

/-- Embeds `EventType` (`None = 0`, `SetValue = 1`, `RemoveCandidate = 2`). -/
inductive EventType where
  | none
  | setValue
  | removeCandidate
deriving DecidableEq, Repr

/-- The numeric value of an `EventType`. -/
def EventType.code : EventType → Nat
  | .none => 0
  | .setValue => 1
  | .removeCandidate => 2

/-- Embeds `ReasonId` as declared in `src/inc/Event.hpp` (the older copy in
`src/src/solver.cpp` stops at `LockedCandidates = 6`). -/
inductive ReasonId where
  | solver
  | fullHouse
  | nakedSingle
  | hiddenSingle
  | pointingPair
  | pointingTriple
  | lockedCandidates
  | boxLineReduction
deriving DecidableEq, Repr

/-- The numeric value of a `ReasonId` (0..7 in declaration order). -/
def ReasonId.code : ReasonId → Nat
  | .solver => 0
  | .fullHouse => 1
  | .nakedSingle => 2
  | .hiddenSingle => 3
  | .pointingPair => 4
  | .pointingTriple => 5
  | .lockedCandidates => 6
  | .boxLineReduction => 7

/-- Embeds the single-operation `Event` of `src/src/solver.cpp` /
`src/src/Event.cpp`: a type, one cell index, one digit and a reason. -/
structure CEvent where
  type : EventType
  idx : Nat
  digit : Nat
  reason : ReasonId
deriving DecidableEq, Repr

/-- Embeds `Event::getEventId`: the event packed into one integer from its
type, index and digit — the reason is not part of the id. -/
def CEvent.getEventId (e : CEvent) : Nat :=
  (e.type.code &&& 255) ||| ((e.idx &&& 255) <<< 8) ||| ((e.digit &&& 255) <<< 16)

/-- Embeds `EventQueue` (`src/src/EventQueue.cpp` and the copy in
`src/src/solver.cpp`): the FIFO `q` plus the `std::set` of event ids,
modelled as the list of ids currently present. -/
structure CEventQueue where
  q : List CEvent
  s : List Nat
deriving DecidableEq, Repr

/-- The default-constructed queue. -/
def CEventQueue.init : CEventQueue := ⟨[], []⟩

/-- Embeds `EventQueue::push`: the event is appended only when its id is
not already in the set; returns whether it was inserted. -/
def CEventQueue.push (qs : CEventQueue) (e : CEvent) : Bool × CEventQueue :=
  if e.getEventId ∈ qs.s then (false, qs)
  else (true, ⟨qs.q ++ [e], e.getEventId :: qs.s⟩)

/-- Embeds `EventQueue::pop` on a non-empty queue: drop the front of `q`
and erase its id from the set (`pop` on the empty queue throws). -/
def CEventQueue.popQ (qs : CEventQueue) : CEventQueue :=
  match qs.q with
  | [] => qs
  | e :: rest => ⟨rest, qs.s.erase e.getEventId⟩

-- =========================================================
-- Unit cell lists
-- =========================================================

/-- The cells of row `r` in scan order (`ROW_CELLS[r]`). -/
def rowCells (r : Nat) : List Nat := (List.range 9).map (rowCell r)

/-- The cells of column `c` in scan order (`COL_CELLS[c]`). -/
def colCells (c : Nat) : List Nat := (List.range 9).map (colCell c)

/-- The cells of box `b` in scan order (`BOX_CELLS[b]`). -/
def boxCells (b : Nat) : List Nat := (List.range 9).map (boxCell b)

-- =========================================================
-- Multi-operation events and the stepping protocol.
--
-- `src/inc/Event.hpp` declares events carrying an ordered list of
-- `Operation { idx, digit }`, `src/inc/solver.hpp` declares
-- `sudorix_solver_next_step(uint32_t *out, uint32_t out_words)`, and
-- `ReasonId::BoxLineReduction` exists — but the implementation behind
-- these declarations is not in the sources (`src/src/solver.cpp` is an
-- older variant with single-operation events and no capacity argument).
-- The definitions in this section model that missing implementation from
-- the specification.
-- =========================================================

/-- An event as declared in `src/inc/Event.hpp`: a kind, a provenance
reason and an ordered list of `(cellIndex, digit)` operations. -/
structure SEvent where
  type : EventType
  reason : ReasonId
  ops : List (Nat × Nat)
deriving DecidableEq, Repr

/-- Modelled from the spec: drain-time applicability of one operation
against the current board — a place-value operation is applicable iff its
target cell is still unsolved, a remove-candidate operation iff its target
cell is unsolved and still has that candidate. -/
def applicableOp (b : Board) (t : EventType) (op : Nat × Nat) : Bool :=
  match t with
  | .setValue => ¬ isSolvedB b op.1
  | .removeCandidate => ¬ isSolvedB b op.1 ∧ hasCandB b op.1 op.2
  | .none => false

/-- Modelled from the spec: `drainEvent` — pop the head event, keep only
its operations that are still applicable (in original order); if none
survive, discard the event and continue with the next queued event.
Returns the filtered event and the remaining queue, or `none` when the
queue runs out. -/
def drainEvent (b : Board) : List SEvent → Option (SEvent × List SEvent)
  | [] => none
  | e :: rest =>
    let kept := e.ops.filter (applicableOp b e.type)
    if kept.isEmpty then drainEvent b rest
    else some ({ e with ops := kept }, rest)

/-- Apply one operation of the given kind to the board, via the board's
`applySetValue` / `applyRemoveCandidate`. -/
def applyOp (t : EventType) (b : Board) (op : Nat × Nat) : Board :=
  match t with
  | .setValue => applySetValue b op.1 op.2
  | .removeCandidate => applyRemoveCandidate b op.1 op.2
  | .none => b

/-- Apply an event's surviving operations to the board, in order. -/
def applyEvent (b : Board) (e : SEvent) : Board := e.ops.foldl (applyOp e.type) b

/-- The enqueue guard of `enqueueSetValue` (src/src/solver.cpp /
src/src/EventQueue.cpp), producing the event it would insert: nothing for
digit 0 or an already-solved cell, else one single-operation place-value
event. -/
def mkSetValueEvent (b : Board) (idx digit : Nat) (reason : ReasonId) : List SEvent :=
  if digit = 0 then []
  else if isSolvedB b idx then []
  else [⟨.setValue, reason, [(idx, digit)]⟩]

/-- Modelled from the spec: a remove-candidate event over the given target
cells, keeping only targets that are unsolved and still carry the digit
(the per-target guard of `enqueueRemoveCandidate`); an event whose
operation list ends up empty is not enqueued. -/
def mkRemoveCandidateEvent (b : Board) (targets : List Nat) (digit : Nat)
    (reason : ReasonId) : List SEvent :=
  let ops := (targets.filter fun i => ¬ isSolvedB b i ∧ hasCandB b i digit).map
    fun i => (i, digit)
  if ops.isEmpty then [] else [⟨.removeCandidate, reason, ops⟩]

/-- Embeds the per-unit scan of `techFullHouse`: if the unit has exactly
one empty cell and the eight others leave exactly one missing digit, that
digit is forced there. -/
def scanFullHouse (b : Board) (cells : List Nat) : List SEvent :=
  match cells.filter (fun i => getValueB b i = 0) with
  | [e] =>
    let present := cells.foldl
      (fun acc i => if getValueB b i = 0 then acc else acc ||| digitToBit (getValueB b i)) 0
    let missing := 511 &&& complement16 present
    if countBits9 missing = 1 then mkSetValueEvent b e (bitToDigitSingle missing) .fullHouse
    else []
  | _ => []

/-- Embeds `techFullHouse` (src/src/solver.cpp): for each `u`, scan box,
row and column `u`. -/
def techFullHouse (b : Board) : List SEvent :=
  (List.range 9).foldr
    (fun u acc =>
      scanFullHouse b (boxCells u) ++ scanFullHouse b (rowCells u) ++
        scanFullHouse b (colCells u) ++ acc)
    []

/-- Embeds the per-unit scan of `techHiddenSingles`: for each digit, if
exactly one unsolved cell of the unit carries it as a candidate, it is
placed there. -/
def scanHiddenSingle (b : Board) (cells : List Nat) : List SEvent :=
  (List.range 9).foldr
    (fun d0 acc =>
      let digit := d0 + 1
      (match cells.filter (fun i => ¬ isSolvedB b i ∧ hasCandB b i digit) with
        | [x] => mkSetValueEvent b x digit .hiddenSingle
        | _ => []) ++ acc)
    []

/-- Embeds `techHiddenSingles` (src/src/solver.cpp): all boxes, then all
rows, then all columns. -/
def techHiddenSingles (b : Board) : List SEvent :=
  ((List.range 9).foldr (fun u acc => scanHiddenSingle b (boxCells u) ++ acc) []) ++
  ((List.range 9).foldr (fun u acc => scanHiddenSingle b (rowCells u) ++ acc) []) ++
  ((List.range 9).foldr (fun u acc => scanHiddenSingle b (colCells u) ++ acc) [])

/-- The reason tag used by `techLockedCandidates` for a given position
count: pair, triple, or the generic name. -/
def lockedReason (posCount : Nat) : ReasonId :=
  if posCount = 2 then .pointingPair
  else if posCount = 3 then .pointingTriple
  else .lockedCandidates

/-- Embeds the per-box, per-digit body of `techLockedCandidates`
(src/src/solver.cpp), with the eliminations bundled into one
remove-candidate event per line as the declared multi-operation event
type: if all candidate positions of the digit in the box share a row, the
digit is removed from that row outside the box; likewise for a column. -/
def scanLockedCandidates (b : Board) (bx digit : Nat) : List SEvent :=
  let positions := (boxCells bx).filter fun i => ¬ isSolvedB b i ∧ hasCandB b i digit
  if positions.length < 2 then []
  else
    let reason := lockedReason positions.length
    let rowPart :=
      match positions with
      | [] => []
      | p :: _ =>
        if positions.all (fun i => idxRow i = idxRow p) then
          mkRemoveCandidateEvent b
            ((rowCells (idxRow p)).filter fun i => idxBox i ≠ bx) digit reason
        else []
    let colPart :=
      match positions with
      | [] => []
      | p :: _ =>
        if positions.all (fun i => idxCol i = idxCol p) then
          mkRemoveCandidateEvent b
            ((colCells (idxCol p)).filter fun i => idxBox i ≠ bx) digit reason
        else []
    rowPart ++ colPart

/-- Embeds `techLockedCandidates` (src/src/solver.cpp): every box, every
digit. -/
def techLockedCandidates (b : Board) : List SEvent :=
  (List.range 9).foldr
    (fun bx acc =>
      (List.range 9).foldr (fun d0 a => scanLockedCandidates b bx (d0 + 1) ++ a) acc)
    []

/-- Embeds `techNakedSingles` (src/src/solver.cpp): every unsolved cell
with exactly one candidate gets a place-value event. -/
def techNakedSingles (b : Board) : List SEvent :=
  (List.range 81).foldr
    (fun i acc =>
      (if ¬ isSolvedB b i ∧ getSingleCandB b i ≠ 0 then
        mkSetValueEvent b i (getSingleCandB b i) .nakedSingle
      else []) ++ acc)
    []

/-- Modelled from the spec: the per-line, per-digit body of Box-Line
Reduction (its implementation is not in the sources; only
`ReasonId::BoxLineReduction` is declared in `src/inc/Event.hpp`).  If the
2 or 3 unsolved cells of the line carrying the digit all fall in a single
box, the digit is removed from the rest of that box. -/
def scanBoxLine (b : Board) (line : List Nat) (digit : Nat) : List SEvent :=
  let hits := line.filter fun i => ¬ isSolvedB b i ∧ hasCandB b i digit
  match hits with
  | p :: _ =>
    if (hits.length = 2 ∨ hits.length = 3) ∧ hits.all (fun i => idxBox i = idxBox p) then
      mkRemoveCandidateEvent b
        ((boxCells (idxBox p)).filter fun i => i ∉ line) digit .boxLineReduction
    else []
  | [] => []

/-- Modelled from the spec: Box-Line Reduction — every row then every
column, every digit. -/
def techBoxLineReduction (b : Board) : List SEvent :=
  ((List.range 9).foldr
    (fun r acc =>
      (List.range 9).foldr (fun d0 a => scanBoxLine b (rowCells r) (d0 + 1) ++ a) acc)
    []) ++
  ((List.range 9).foldr
    (fun c acc =>
      (List.range 9).foldr (fun d0 a => scanBoxLine b (colCells c) (d0 + 1) ++ a) acc)
    [])

/-- The fixed technique priority order of the spec: Full House, Hidden
Single, Locked Candidates, Naked Single, Box-Line Reduction. -/
def TECHNIQUES : List (Board → List SEvent) :=
  [techFullHouse, techHiddenSingles, techLockedCandidates, techNakedSingles,
    techBoxLineReduction]

/-- Run techniques in order, stopping at the first one that enqueues at
least one event; the later techniques do not run. -/
def runFirst (b : Board) : List (Board → List SEvent) → List SEvent
  | [] => []
  | t :: ts => let evs := t b; if evs.isEmpty then runFirst b ts else evs

/-- One technique pass over the board. -/
def runPass (b : Board) : List SEvent := runFirst b TECHNIQUES

/-- Modelled from the spec: `computeNextEvent` — drain the pending queue
first (provenance flag `true`); if nothing survives, run the techniques in
priority order and drain the freshly generated events (flag `false`).
Surviving operations are applied to the board. -/
def computeNextEvent (b : Board) (q : List SEvent) :
    Option (SEvent × Bool × Board × List SEvent) :=
  match drainEvent b q with
  | some (ev, rest) => some (ev, true, applyEvent b ev, rest)
  | none =>
    match drainEvent b (runPass b) with
    | some (ev, rest) => some (ev, false, applyEvent b ev, rest)
    | none => none

/-- Modelled from the spec: the Next Step output layout — `[0]` event
kind, `[1]` reason code, `[2]` provenance flag, `[3]` operation count,
then the `(cellIndex, digit)` pairs. -/
def serializeEvent (ev : SEvent) (fromPrev : Bool) : List Nat :=
  ev.type.code :: ev.reason.code :: (if fromPrev then 1 else 0) :: ev.ops.length ::
    ev.ops.foldr (fun op acc => op.1 :: op.2 :: acc) []

/-- Modelled from the spec: the Next Step entry point behind
`sudorix_solver_next_step(uint32_t *out, uint32_t out_words)` — compute
the next event; if the caller's capacity cannot hold the serialized event,
fail without mutating the session board or queue; otherwise commit the
applied board and remaining queue and return the serialized event. -/
def nextStep (b : Board) (q : List SEvent) (cap : Nat) :
    Option (List Nat) × (Board × List SEvent) :=
  match computeNextEvent b q with
  | none => (none, (b, []))
  | some (ev, fromPrev, b', q') =>
    let out := serializeEvent ev fromPrev
    if cap < out.length then (none, (b, q))
    else (some out, (b', q'))

-- =========================================================
-- Lemmas and claim theorems
-- =========================================================

/-- Two single-operation events that differ only in their reason: a
place-value of digit 1 at cell 0, once tagged Full House and once tagged
Naked Single. -/
def evFH : CEvent := ⟨.setValue, 0, 1, .fullHouse⟩

/-- See `evFH`. -/
def evNS : CEvent := ⟨.setValue, 0, 1, .nakedSingle⟩

/-- C7 (counterexample): enqueueing is not dedup-free — pushing two
events with identical kind, cell and digit but different reason codes into
the empty queue, the second push is rejected and only the first event is
in the queue, contradicting the claim that both enter it. -/
theorem push_dedups_same_kind_cell_digit :
    evFH.reason ≠ evNS.reason ∧ evFH.type = evNS.type ∧ evFH.idx = evNS.idx ∧
      evFH.digit = evNS.digit ∧
      ((CEventQueue.init.push evFH).2.push evNS).1 = false ∧
      ((CEventQueue.init.push evFH).2.push evNS).2.q = [evFH] := by
  decide

/-- C7 (amended): `EventQueue::push` deduplicates by the event id, which
is built from kind, cell index and digit only — after pushing an event,
pushing any event with the same kind, cell and digit (regardless of its
reason code) is rejected and leaves the queue unchanged. -/
theorem push_rejects_duplicate_id (qs : CEventQueue) (e1 e2 : CEvent)
    (ht : e1.type = e2.type) (hi : e1.idx = e2.idx) (hd : e1.digit = e2.digit) :
    ((qs.push e1).2.push e2) = (false, (qs.push e1).2) := by
  have hid : e2.getEventId = e1.getEventId := by
    simp [CEvent.getEventId, ht, hi, hd]
  by_cases hmem : e1.getEventId ∈ qs.s
  · simp [CEventQueue.push, hmem, hid]
  · simp [CEventQueue.push, hmem, hid]

/-- C7 (witness for the amended claim): the dedup fires on the two
concrete differently-reasoned events. -/
theorem push_rejects_duplicate_id_witness :
    ((CEventQueue.init.push evFH).2.push evNS) = (false, (CEventQueue.init.push evFH).2) :=
  push_rejects_duplicate_id CEventQueue.init evFH evNS (by decide) (by decide) (by decide)

/-- An input with two '1' givens in row 0 and 79 empties: 81 recognized
symbols, but an inconsistent grid (two solved peers share digit 1). -/
def strConflictOnes : List Char := '1' :: '1' :: List.replicate 79 '.'

/-- An input with two '2' givens in row 0 and 79 empties. -/
def strConflictTwos : List Char := '2' :: '2' :: List.replicate 79 '.'

/-- C3: importing fewer than 81 recognized symbols does fail, but
importing an inconsistent grid does not — on two conflicting givens in the
same row the candidate recompute reports failure, yet `importFromString`
discards that flag and reports success, handing the caller the board. -/
theorem import_reports_success_on_inconsistent_grid :
    (importFromString emptyBoard (List.replicate 80 '.')).1 = false ∧
      (importFromString emptyBoard strConflictOnes).1 = true ∧
      getValueB (importFromString emptyBoard strConflictOnes).2 0 = 1 ∧
      getValueB (importFromString emptyBoard strConflictOnes).2 1 = 1 ∧
      idxRow 0 = idxRow 1 ∧
      (recalcAllCandidatesFromValues (importGo strConflictOnes 0 0 emptyBoard).1).1 =
        false := by
  refine ⟨rfl, rfl, rfl, rfl, rfl, rfl⟩

set_option maxRecDepth 100000 in
/-- C6: a board state reachable through a successful session-init call
(`sudorix_solver_init_board`, i.e. `importFromString` on the session
board) violates the solved-cell invariant: after importing two conflicting
'2' givens the call reports success, yet cell 1 has value 2 and candidate
mask 0 instead of digit 2's bit. -/
theorem reachable_board_breaks_value_candidates_invariant :
    (importFromString emptyBoard strConflictTwos).1 = true ∧
      getValueB (importFromString emptyBoard strConflictTwos).2 1 = 2 ∧
      getCandB (importFromString emptyBoard strConflictTwos).2 1 = 0 ∧
      getCandB (importFromString emptyBoard strConflictTwos).2 1 ≠
        digitToBit (getValueB (importFromString emptyBoard strConflictTwos).2 1) := by
  refine ⟨rfl, rfl, rfl, by decide⟩

/-- Bits of 511 = 2^9 - 1. -/
theorem testBit_511 (i : Nat) : Nat.testBit 511 i = decide (i < 9) := by
  have h : (511 : Nat) = 2 ^ 9 - 1 := by norm_num
  rw [h, Nat.testBit_two_pow_sub_one]

/-- Clipping below 512 is the identity. -/
theorem land511_of_lt {m : Nat} (h : m < 512) : m &&& 511 = m := by
  refine Nat.eq_of_testBit_eq fun i => ?_
  rw [Nat.testBit_land, testBit_511]
  by_cases hi : i < 9
  · simp [hi]
  · have : m < 2 ^ i := by
      calc m < 512 := h
      _ = 2 ^ 9 := by norm_num
      _ ≤ 2 ^ i := Nat.pow_le_pow_right (by omega) (by omega)
    simp [hi, Nat.testBit_lt_two_pow this]

/-- For digits up to 16 the 16-bit truncation in `digitToBit` vanishes. -/
theorem digitToBit_eq_pow {d : Nat} (h : d ≤ 16) : digitToBit d = 2 ^ (d - 1) := by
  unfold digitToBit
  rw [Nat.shiftLeft_eq, Nat.one_mul]
  refine Nat.mod_eq_of_lt ?_
  calc 2 ^ (d - 1) ≤ 2 ^ 15 := Nat.pow_le_pow_right (by omega) (by omega)
  _ < 65536 := by norm_num

/-- A digit's bit (digit ≤ 9) fits in 9 bits. -/
theorem digitToBit_lt_512 {d : Nat} (h : d ≤ 9) : digitToBit d < 512 := by
  rw [digitToBit_eq_pow (by omega)]
  calc 2 ^ (d - 1) ≤ 2 ^ 8 := Nat.pow_le_pow_right (by omega) (by omega)
  _ < 512 := by norm_num

/-- The bits of a digit's bit. -/
theorem testBit_digitToBit {d : Nat} (h : d ≤ 16) (k : Nat) :
    (digitToBit d).testBit k = decide (k = d - 1) := by
  rw [digitToBit_eq_pow h, Nat.testBit_two_pow]
  by_cases hk : k = d - 1 <;> simp [hk]
  omega

/-- The spec's data-model constraints on one board (§3): values are 0..9,
masks are 9-bit, and a solved cell's mask is exactly its digit's bit. -/
def WellformedBoard (b : Board) : Prop :=
  ∀ i, i < 81 →
    (b i).value ≤ 9 ∧ (b i).candMask < 512 ∧
      ((b i).value ≠ 0 → (b i).candMask = digitToBit (b i).value)

instance : DecidablePred WellformedBoard := fun b =>
  Nat.decidableBallLT 81 fun i _ =>
    (b i).value ≤ 9 ∧ (b i).candMask < 512 ∧
      ((b i).value ≠ 0 → (b i).candMask = digitToBit (b i).value)

/-- Cells are equal when their two fields are. -/
theorem cellExt (c1 c2 : Cell) (h1 : c1.value = c2.value)
    (h2 : c1.candMask = c2.candMask) : c1 = c2 := by
  cases c1; cases c2; simp_all

/-- C9: for every board satisfying the data model's cell invariants,
`exportToBuffers` followed by `importFromBuffers` on the exported buffers
reproduces the identical per-cell value and candidate-mask state. -/
theorem export_import_roundtrip (b : Board) (hw : WellformedBoard b) :
    ∀ i, i < 81 →
      importFromBuffers b (exportToBuffers b).1 (exportToBuffers b).2 i = b i := by
  intro i hi
  obtain ⟨hv, hm, hinv⟩ := hw i hi
  have hmask9 : (b i).candMask &&& 511 = (b i).candMask := land511_of_lt hm
  unfold importFromBuffers
  rw [if_pos hi]
  by_cases h0 : (b i).value = 0
  · refine cellExt _ _ ?_ ?_
    · simp [exportToBuffers]
    · simp [exportToBuffers, h0, Cell.getCandidateMask, hmask9]
  · refine cellExt _ _ ?_ ?_
    · simp [exportToBuffers]
    · simp [exportToBuffers, h0, land511_of_lt (digitToBit_lt_512 hv), hinv h0]

/-- A concrete wellformed board: cell 0 solved with 5, all other cells
empty with a full mask. -/
def bWit : Board := fun i => if i = 0 then ⟨5, 16⟩ else ⟨0, 511⟩

/-- C9 (witness): the round trip on the concrete wellformed board. -/
theorem export_import_roundtrip_witness :
    WellformedBoard bWit ∧
      (∀ i, i < 81 →
        importFromBuffers bWit (exportToBuffers bWit).1 (exportToBuffers bWit).2 i =
          bWit i) :=
  ⟨by decide, export_import_roundtrip bWit (by decide)⟩

/-- C1: draining yields exactly the first queued event with at least one
operation that is applicable against the current board — every earlier
event (all of whose operations fail the applicability test) is discarded
and draining continues past it; the returned event keeps precisely its
applicable operations, in original order (a filter of its operation list),
and the remaining queue is what follows the returned event.  In
particular a drained result never has an empty operation list. -/
theorem drainEvent_first_applicable (b : Board) (q : List SEvent) (ev : SEvent)
    (rest : List SEvent) :
    drainEvent b q = some (ev, rest) ↔
      ∃ pre e suf, q = pre ++ e :: suf ∧
        (∀ e' ∈ pre, e'.ops.filter (applicableOp b e'.type) = []) ∧
        e.ops.filter (applicableOp b e.type) ≠ [] ∧
        ev = { e with ops := e.ops.filter (applicableOp b e.type) } ∧
        rest = suf := by
  induction q generalizing ev rest with
  | nil =>
    simp only [drainEvent]
    constructor
    · intro h; cases h
    · rintro ⟨pre, e, suf, habs, -⟩
      exact absurd habs (by simp)
  | cons e0 rest0 ih =>
    by_cases h0 : e0.ops.filter (applicableOp b e0.type) = []
    · rw [show drainEvent b (e0 :: rest0) = drainEvent b rest0 by
        simp [drainEvent, h0]]
      rw [ih]
      constructor
      · rintro ⟨pre, e, suf, hq, hpre, hne, hev, hrest⟩
        exact ⟨e0 :: pre, e, suf, by simp [hq], by
          intro e' he'
          rcases List.mem_cons.mp he' with h | h
          · exact h ▸ h0
          · exact hpre e' h, hne, hev, hrest⟩
      · rintro ⟨pre, e, suf, hq, hpre, hne, hev, hrest⟩
        cases pre with
        | nil =>
          simp only [List.nil_append, List.cons.injEq] at hq
          exact absurd (hq.1 ▸ h0) hne
        | cons p pre' =>
          simp only [List.cons_append, List.cons.injEq] at hq
          exact ⟨pre', e, suf, hq.2, fun e' he' => hpre e' (by simp [he']),
            hne, hev, hrest⟩
    · rw [show drainEvent b (e0 :: rest0) =
          some ({ e0 with ops := e0.ops.filter (applicableOp b e0.type) }, rest0) by
        simp [drainEvent, h0]]
      constructor
      · intro h
        simp only [Option.some.injEq, Prod.mk.injEq] at h
        exact ⟨[], e0, rest0, rfl, by simp, h0, h.1.symm, h.2.symm⟩
      · rintro ⟨pre, e, suf, hq, hpre, hne, hev, hrest⟩
        cases pre with
        | nil =>
          simp only [List.nil_append, List.cons.injEq] at hq
          subst hrest
          rw [hev, hq.1, hq.2]
        | cons p pre' =>
          simp only [List.cons_append, List.cons.injEq] at hq
          exact absurd (hq.1 ▸ hpre p (by simp)) h0

/-- A concrete drain scenario: cell 0 solved with 5, cell 1 unsolved with
candidates {1,2}, every other cell unsolved with candidates {1,2}. -/
def drainB : Board := fun i => if i = 0 then ⟨5, 16⟩ else ⟨0, 3⟩

/-- A queued place-value event that is fully stale on `drainB` (its target
cell is already solved). -/
def drainStale : SEvent := ⟨.setValue, .nakedSingle, [(0, 5)]⟩

/-- A queued remove-candidate event that is partially stale on `drainB`:
its first operation targets a solved cell, its third an absent candidate,
and only its second is still applicable. -/
def drainMixed : SEvent := ⟨.removeCandidate, .pointingPair, [(0, 1), (1, 1), (1, 5)]⟩

/-- C1 (witness): on the concrete queue the fully stale head is skipped
and the second event is returned with exactly its surviving operation. -/
theorem drainEvent_first_applicable_witness :
    drainEvent drainB [drainStale, drainMixed] =
      some (⟨.removeCandidate, .pointingPair, [(1, 1)]⟩, []) :=
  (drainEvent_first_applicable drainB [drainStale, drainMixed] _ _).mpr
    ⟨[drainStale], drainMixed, [], rfl, by decide, by decide, by decide, rfl⟩

/-- Running an ordered technique list stops at the first technique that
produces events and returns exactly its output. -/
theorem runFirst_stops (b : Board) :
    ∀ (ts : List (Board → List SEvent)) (i : Nat) (hi : i < ts.length),
      (∀ j (hj : j < i), ts.get ⟨j, by omega⟩ b = []) →
      ts.get ⟨i, hi⟩ b ≠ [] → runFirst b ts = ts.get ⟨i, hi⟩ b := by
  intro ts
  induction ts with
  | nil => intro i hi; simp at hi
  | cons t ts ih =>
    intro i hi hprev hne
    cases i with
    | zero =>
      have : ¬ (t b).isEmpty = true := by
        simpa [List.isEmpty_iff] using hne
      simp [runFirst, this]
    | succ i' =>
      have h0 : t b = [] := hprev 0 (by omega)
      have : (t b).isEmpty = true := by simp [h0]
      rw [show runFirst b (t :: ts) = runFirst b ts by simp [runFirst, this]]
      exact ih i' (by simpa using hi) (fun j hj => hprev (j + 1) (by omega)) hne

/-- C2: the technique engine consists of exactly the five techniques Full
House, Hidden Single, Locked Candidates, Naked Single, Box-Line Reduction
in this fixed priority order, and a pass returns the output of the first
technique in the order that enqueues at least one event — techniques after
it contribute nothing to the pass. -/
theorem techniques_priority_order :
    TECHNIQUES = [techFullHouse, techHiddenSingles, techLockedCandidates,
        techNakedSingles, techBoxLineReduction] ∧
      TECHNIQUES.length = 5 ∧
      ∀ (b : Board) (i : Nat) (hi : i < TECHNIQUES.length),
        (∀ j (hj : j < i), TECHNIQUES.get ⟨j, by omega⟩ b = []) →
        TECHNIQUES.get ⟨i, hi⟩ b ≠ [] → runPass b = TECHNIQUES.get ⟨i, hi⟩ b :=
  ⟨rfl, rfl, fun b i hi hprev hne => runFirst_stops b TECHNIQUES i hi hprev hne⟩

/-- A board on which Full House finds nothing but Hidden Single fires:
all cells empty, digit 1 a candidate only in cell 0, digit 2 everywhere. -/
def hsBoard : Board := fun i => if i = 0 then ⟨0, 1⟩ else ⟨0, 2⟩

/-- C2 (witness): on `hsBoard` the pass skips Full House (no output) and
returns Hidden Single's events. -/
theorem techniques_priority_order_witness :
    runPass hsBoard = TECHNIQUES.get ⟨1, by decide⟩ hsBoard :=
  techniques_priority_order.2.2 hsBoard 1 (by decide)
    (fun j hj => by
      have hj0 : j = 0 := by omega
      subst hj0
      show techFullHouse hsBoard = []
      decide)
    (by decide)

/-- The serialized event occupies `4 + 2 * n` words. -/
theorem serializeEvent_length (ev : SEvent) (prev : Bool) :
    (serializeEvent ev prev).length = 4 + 2 * ev.ops.length := by
  unfold serializeEvent
  suffices h : ∀ ops : List (Nat × Nat),
      (ops.foldr (fun op acc => op.1 :: op.2 :: acc) ([] : List Nat)).length =
        2 * ops.length by
    simp [h ev.ops]
    omega
  intro ops
  induction ops with
  | nil => rfl
  | cons op ops ih => simp [ih]; omega

/-- C4: every successful Next Step call returns the buffer
`[kind, reason, provenance, n] ++ pairs`: word 0 is the event kind code,
word 1 the reason code, word 2 the provenance flag — equal to 1 exactly
when the event was drained from the previously pending queue (0 when it
was generated by the technique pass of this call) — word 3 the operation
count, followed by the `(cellIndex, digit)` pairs in order. -/
theorem next_step_output_layout (b : Board) (q : List SEvent) (cap : Nat)
    (out : List Nat) (s2 : Board × List SEvent)
    (h : nextStep b q cap = (some out, s2)) :
    ∃ ev prev b2 q2, computeNextEvent b q = some (ev, prev, b2, q2) ∧
      out = ev.type.code :: ev.reason.code :: (if prev then 1 else 0) ::
        ev.ops.length :: ev.ops.foldr (fun op acc => op.1 :: op.2 :: acc) [] ∧
      (prev = true ↔ (drainEvent b q).isSome) ∧
      s2 = (b2, q2) := by
  unfold nextStep at h
  cases hc : computeNextEvent b q with
  | none => rw [hc] at h; simp at h
  | some t =>
    obtain ⟨ev, prev, b2, q2⟩ := t
    rw [hc] at h
    dsimp only at h
    by_cases hcap : cap < (serializeEvent ev prev).length
    · rw [if_pos hcap] at h; simp at h
    · rw [if_neg hcap] at h
      simp only [Prod.mk.injEq, Option.some.injEq] at h
      refine ⟨ev, prev, b2, q2, rfl, h.1.symm, ?_, h.2.symm⟩
      unfold computeNextEvent at hc
      cases hd : drainEvent b q with
      | some p =>
        rw [hd] at hc
        simp only [Option.some.injEq, Prod.mk.injEq] at hc
        simp [hc.2.1]
      | none =>
        rw [hd] at hc
        cases hd2 : drainEvent b (runPass b) with
        | none => rw [hd2] at hc; simp at hc
        | some p =>
          rw [hd2] at hc
          simp only [Option.some.injEq, Prod.mk.injEq] at hc
          simp [← hc.2.1]

/-- The event surviving the drain of the concrete queue. -/
def drainedEv : SEvent := ⟨.removeCandidate, .pointingPair, [(1, 1)]⟩

/-- C4 (witness): the layout theorem applied to the concrete session in
which the pending queue yields `drainedEv`. -/
theorem next_step_output_layout_witness :
    ∃ ev prev b2 q2,
      computeNextEvent drainB [drainStale, drainMixed] = some (ev, prev, b2, q2) ∧
        [2, 4, 1, 1, 1, 1] = ev.type.code :: ev.reason.code ::
          (if prev then 1 else 0) :: ev.ops.length ::
          ev.ops.foldr (fun op acc => op.1 :: op.2 :: acc) [] ∧
        (prev = true ↔ (drainEvent drainB [drainStale, drainMixed]).isSome) ∧
        (nextStep drainB [drainStale, drainMixed] 6).2 = (b2, q2) :=
  next_step_output_layout drainB [drainStale, drainMixed] 6 [2, 4, 1, 1, 1, 1]
    (nextStep drainB [drainStale, drainMixed] 6).2 rfl

/-- C5: when the caller's capacity is smaller than the `4 + 2 * n` words
needed by the event about to be returned, Next Step fails without mutating
the session board or queue — the event is not consumed — and a subsequent
call with adequate capacity returns that same event (same serialization)
and only then commits the new board and queue. -/
theorem next_step_insufficient_capacity (b : Board) (q : List SEvent) (cap : Nat)
    (ev : SEvent) (prev : Bool) (b2 : Board) (q2 : List SEvent)
    (hc : computeNextEvent b q = some (ev, prev, b2, q2))
    (hcap : cap < 4 + 2 * ev.ops.length) :
    nextStep b q cap = (none, (b, q)) ∧
      ∀ cap2, 4 + 2 * ev.ops.length ≤ cap2 →
        nextStep b q cap2 = (some (serializeEvent ev prev), (b2, q2)) := by
  constructor
  · unfold nextStep
    rw [hc]
    dsimp only
    rw [if_pos (by rw [serializeEvent_length]; omega)]
  · intro cap2 hcap2
    unfold nextStep
    rw [hc]
    dsimp only
    rw [if_neg (by rw [serializeEvent_length]; omega)]

/-- C5 (witness): with capacity 5 the 6-word event is refused and the
session state untouched; retrying with capacity 6 returns it. -/
theorem next_step_insufficient_capacity_witness :
    nextStep drainB [drainStale, drainMixed] 5 =
        (none, (drainB, [drainStale, drainMixed])) ∧
      nextStep drainB [drainStale, drainMixed] 6 =
        (some (serializeEvent drainedEv true), (applyEvent drainB drainedEv, [])) :=
  ⟨(next_step_insufficient_capacity drainB [drainStale, drainMixed] 5 drainedEv true
      (applyEvent drainB drainedEv) [] rfl (by decide)).1,
    (next_step_insufficient_capacity drainB [drainStale, drainMixed] 5 drainedEv true
      (applyEvent drainB drainedEv) [] rfl (by decide)).2 6 (by decide)⟩

/-- Bits of 65535 = 2^16 - 1. -/
theorem testBit_65535 (i : Nat) : Nat.testBit 65535 i = decide (i < 16) := by
  have h : (65535 : Nat) = 2 ^ 16 - 1 := by norm_num
  rw [h, Nat.testBit_two_pow_sub_one]

/-- Disabling the same candidate twice is the same as disabling it once. -/
theorem disableCandidate_idempotent (c : Cell) (d : Nat) :
    (c.disableCandidate d).disableCandidate d = c.disableCandidate d := by
  refine cellExt _ _ rfl ?_
  unfold Cell.disableCandidate Cell.getCandidateMask complement16
  refine Nat.eq_of_testBit_eq fun i => ?_
  simp only [Nat.testBit_land, Nat.testBit_xor, testBit_511, testBit_65535]
  by_cases h9 : i < 9
  · have d9 : decide (i < 9) = true := by simp [h9]
    have d16 : decide (i < 16) = true := by simp; omega
    rw [d9, d16]
    cases (c.candMask).testBit i <;> cases (digitToBit d).testBit i <;> rfl
  · simp [h9]

/-- `sharing a row, column or box` for two cell indices. -/
def sameUnit (i j : Nat) : Prop :=
  idxRow i = idxRow j ∨ idxCol i = idxCol j ∨ idxBox i = idxBox j

instance (i j : Nat) : Decidable (sameUnit i j) := by
  unfold sameUnit; infer_instance

/-- Membership in a three-way interleaved foldr list. -/
theorem mem_foldr_three (f1 f2 f3 : Nat → Nat) (j : Nat) :
    ∀ L : List Nat,
      (j ∈ L.foldr (fun k acc => f1 k :: f2 k :: f3 k :: acc) []) ↔
        ∃ k ∈ L, j = f1 k ∨ j = f2 k ∨ j = f3 k := by
  intro L
  induction L with
  | nil => simp
  | cons x L ih =>
    simp only [List.foldr_cons, List.mem_cons, ih]
    constructor
    · rintro (h | h | h | ⟨k, hk, hor⟩)
      · exact ⟨x, by simp, Or.inl h⟩
      · exact ⟨x, by simp, Or.inr (Or.inl h)⟩
      · exact ⟨x, by simp, Or.inr (Or.inr h)⟩
      · exact ⟨k, by simp [hk], hor⟩
    · rintro ⟨k, hk, hor⟩
      rcases hk with hkx | hkL
      · subst hkx
        rcases hor with h | h | h
        · exact Or.inl h
        · exact Or.inr (Or.inl h)
        · exact Or.inr (Or.inr (Or.inl h))
      · exact Or.inr (Or.inr (Or.inr ⟨k, hkL, hor⟩))

/-- The visited peer sequence is exactly the cells below 81 sharing the
placed cell's row, column or box. -/
theorem mem_peerSeq (idx : Nat) (hidx : idx < 81) (j : Nat) :
    j ∈ peerSeq idx ↔ j < 81 ∧ sameUnit j idx := by
  unfold peerSeq
  rw [mem_foldr_three]
  simp only [List.mem_range, rowCell, colCell, boxCell, idxRow, idxCol, idxBox, sameUnit]
  constructor
  · rintro ⟨k, hk, h⟩
    omega
  · rintro ⟨hj, hr | hc | hb⟩
    · exact ⟨j % 9, by omega, by omega⟩
    · exact ⟨j / 9, by omega, by omega⟩
    · exact ⟨((j / 9) % 3) * 3 + (j % 9) % 3, by omega, by omega⟩

/-- Pointwise description of one guarded disable. -/
theorem clearStep_apply (idx digit : Nat) (b : Board) (cell j : Nat) :
    clearStep idx digit b cell j =
      if j = cell ∧ cell ≠ idx ∧ (b cell).value = 0 then (b cell).disableCandidate digit
      else b j := by
  have hiff : (cell ≠ idx ∧ ¬ isSolvedB b cell = true) ↔ (cell ≠ idx ∧ (b cell).value = 0) := by
    simp [isSolvedB]
  unfold clearStep disableCandB setCellAt
  by_cases hg : cell ≠ idx ∧ (b cell).value = 0
  · rw [if_pos (hiff.mpr hg)]
    by_cases hj : j = cell
    · rw [if_pos hj, if_pos ⟨hj, hg⟩]
    · rw [if_neg hj, if_neg (by simp [hj])]
  · rw [if_neg (fun h => hg (hiff.mp h)), if_neg (by simp [hg])]

/-- A guarded disable never changes a value. -/
theorem clearStep_value (idx digit : Nat) (b : Board) (cell j : Nat) :
    (clearStep idx digit b cell j).value = (b j).value := by
  rw [clearStep_apply]
  by_cases h : j = cell ∧ cell ≠ idx ∧ (b cell).value = 0
  · rw [if_pos h, show (b cell).disableCandidate digit = { b cell with
      candMask := (b cell).getCandidateMask &&& complement16 (digitToBit digit) } from rfl]
    rw [h.1]
  · rw [if_neg h]

/-- Pointwise effect of the guarded-disable fold: a cell is rewritten
exactly when it is in the visited list, differs from the placed cell and
was unsolved — and then the rewrite is a single disable of the digit. -/
theorem foldl_clearStep_apply (idx digit : Nat) :
    ∀ (L : List Nat) (b : Board) (j : Nat),
      (L.foldl (clearStep idx digit) b) j =
        if j ∈ L ∧ j ≠ idx ∧ (b j).value = 0 then (b j).disableCandidate digit
        else b j := by
  intro L
  induction L with
  | nil => intro b j; simp
  | cons cell L ih =>
    intro b j
    rw [List.foldl_cons, ih (clearStep idx digit b cell) j, clearStep_value,
      clearStep_apply]
    by_cases hv : (b j).value = 0
    · by_cases hji : j = idx
      · have h1 : ¬ (j ∈ L ∧ j ≠ idx ∧ (b j).value = 0) := by simp [hji]
        have h2 : ¬ (j ∈ cell :: L ∧ j ≠ idx ∧ (b j).value = 0) := by simp [hji]
        have h3 : ¬ (j = cell ∧ cell ≠ idx ∧ (b cell).value = 0) := by
          rintro ⟨rfl, hci, -⟩
          exact hci hji
        rw [if_neg h1, if_neg h2, if_neg h3]
      · by_cases hjc : j = cell
        · have h3 : (j = cell ∧ cell ≠ idx ∧ (b cell).value = 0) := by
            refine ⟨hjc, ?_, ?_⟩
            · rw [← hjc]; exact hji
            · rw [← hjc]; exact hv
          rw [if_pos h3]
          by_cases hjL : j ∈ L
          · rw [if_pos ⟨hjL, hji, hv⟩, if_pos ⟨List.mem_cons_of_mem _ hjL, hji, hv⟩,
              ← hjc, disableCandidate_idempotent]
          · rw [if_neg (by simp [hjL]), if_pos ⟨by simp [hjc], hji, hv⟩, ← hjc]
        · have h3 : ¬ (j = cell ∧ cell ≠ idx ∧ (b cell).value = 0) := by simp [hjc]
          rw [if_neg h3]
          by_cases hjL : j ∈ L
          · rw [if_pos ⟨hjL, hji, hv⟩, if_pos ⟨by simp [hjL], hji, hv⟩]
          · rw [if_neg (by simp [hjL]), if_neg (by simp [hjc, hjL])]
    · have h1 : ¬ (j ∈ L ∧ j ≠ idx ∧ (b j).value = 0) := by simp [hv]
      have h2 : ¬ (j ∈ cell :: L ∧ j ≠ idx ∧ (b j).value = 0) := by simp [hv]
      rw [if_neg h1, if_neg h2]
      by_cases hjc : j = cell
      · have h3 : ¬ (j = cell ∧ cell ≠ idx ∧ (b cell).value = 0) := by
          rintro ⟨rfl, -, hc0⟩
          exact hv hc0
        rw [if_neg h3]
      · rw [if_neg (by simp [hjc])]

/-- C10: placing digit `d` at cell `idx` sets that cell's value to `d`
(and its mask to the digit's bit), removes `d` as a candidate from every
other still-unsolved cell sharing `idx`'s row, column or box, and leaves
every remaining cell — each non-peer and each already-solved peer —
entirely unchanged, value and candidate mask alike. -/
theorem applySetValue_spec (b : Board) (idx d : Nat) (hidx : idx < 81)
    (hd1 : 1 ≤ d) (hd9 : d ≤ 9) :
    applySetValue b idx d idx = ⟨d, digitToBit d⟩ ∧
      (∀ j, j ≠ idx → j < 81 → sameUnit j idx → (b j).value = 0 →
        applySetValue b idx d j = (b j).disableCandidate d) ∧
      (∀ j, j ≠ idx → (¬ (j < 81 ∧ sameUnit j idx) ∨ (b j).value ≠ 0) →
        applySetValue b idx d j = b j) := by
  have hb1 : ∀ j, j ≠ idx → setValueB b idx d j = b j := by
    intro j hj
    unfold setValueB setCellAt
    rw [if_neg hj]
  have hb1i : setValueB b idx d idx = ⟨d, digitToBit d⟩ := by
    unfold setValueB setCellAt Cell.setValue
    rw [if_pos rfl, if_pos (by omega)]
  unfold applySetValue autoClearPeersAfterPlacement
  refine ⟨?_, ?_, ?_⟩
  · rw [foldl_clearStep_apply, if_neg (by simp), hb1i]
  · intro j hj hj81 hsame hv
    rw [foldl_clearStep_apply,
      if_pos ⟨(mem_peerSeq idx hidx j).mpr ⟨hj81, hsame⟩, hj, by rw [hb1 j hj]; exact hv⟩,
      hb1 j hj]
  · intro j hj hcase
    rw [foldl_clearStep_apply, if_neg ?_, hb1 j hj]
    rcases hcase with hnp | hsolved
    · rintro ⟨hmem, -, -⟩
      exact hnp ((mem_peerSeq idx hidx j).mp hmem)
    · rintro ⟨-, -, hv0⟩
      rw [hb1 j hj] at hv0
      exact hsolved hv0

/-- C10 (witness): placing 3 at cell 1 of the concrete board — cell 1 is
set, the unsolved row peer at cell 2 loses candidate 3, the solved peer at
cell 0 and the non-peer cell 80 are untouched. -/
theorem applySetValue_spec_witness :
    applySetValue bWit 1 3 1 = ⟨3, 4⟩ ∧
      applySetValue bWit 1 3 2 = (bWit 2).disableCandidate 3 ∧
      applySetValue bWit 1 3 0 = bWit 0 ∧
      applySetValue bWit 1 3 80 = bWit 80 := by
  have h := applySetValue_spec bWit 1 3 (by decide) (by decide) (by decide)
  refine ⟨?_, ?_, ?_, ?_⟩
  · have := h.1
    rwa [show digitToBit 3 = 4 from rfl] at this
  · exact h.2.1 2 (by decide) (by decide) (by decide) rfl
  · exact h.2.2 0 (by decide) (Or.inr (by decide))
  · exact h.2.2 80 (by decide) (Or.inl (by decide))

/-- `setCandB` never changes a value. -/
theorem setCandB_value (b : Board) (i m j : Nat) :
    (setCandB b i m j).value = (b j).value := by
  unfold setCandB setCellAt Cell.setCandidateMask
  by_cases h : j = i <;> simp [h]

/-- Landing with a digit's bit is nonzero exactly when that bit is set. -/
theorem land_digitToBit_ne_zero {d : Nat} (hd : d ≤ 16) (x : Nat) :
    x &&& digitToBit d ≠ 0 ↔ x.testBit (d - 1) = true := by
  rw [digitToBit_eq_pow hd, Nat.and_two_pow]
  cases h : x.testBit (d - 1) <;> simp [h]

/-- Landing with a digit's bit is zero exactly when that bit is clear. -/
theorem land_digitToBit_eq_zero {d : Nat} (hd : d ≤ 16) (x : Nat) :
    x &&& digitToBit d = 0 ↔ x.testBit (d - 1) = false := by
  constructor
  · intro h
    cases htb : x.testBit (d - 1)
    · rfl
    · exact absurd ((land_digitToBit_ne_zero hd x).mpr htb) (by simp [h])
  · intro h
    by_contra hne
    rw [(land_digitToBit_ne_zero hd x).mp hne] at h
    cases h

/-- Unfolding of one pass-1 step. -/
theorem pass1_cons (x : Nat) (rest : List Nat) (st : Pass1State) :
    pass1 (x :: rest) st =
      if (st.bd x).value = 0 then pass1 rest st
      else if (st.bd x).value < 1 ∨ 9 < (st.bd x).value then (false, st)
      else if st.ru (idxRow x) &&& digitToBit ((st.bd x).value) ≠ 0 then (false, st)
      else if st.cu (idxCol x) &&& digitToBit ((st.bd x).value) ≠ 0 then (false, st)
      else if st.bu (idxBox x) &&& digitToBit ((st.bd x).value) ≠ 0 then (false, st)
      else pass1 rest
        { ru := updMask st.ru (idxRow x) (digitToBit ((st.bd x).value))
          cu := updMask st.cu (idxCol x) (digitToBit ((st.bd x).value))
          bu := updMask st.bu (idxBox x) (digitToBit ((st.bd x).value))
          bd := setCandB st.bd x (digitToBit ((st.bd x).value)) } := rfl

/-- The per-pair conflict-freedom relation of pass 1, over a fixed value
assignment. -/
def pairOk (V : Nat → Nat) (i j : Nat) : Prop :=
  V i ≠ 0 → V j ≠ 0 → V i = V j → ¬ sameUnit i j

/-- Pass 1 succeeds exactly when no listed solved cell conflicts with the
initial used masks and no two listed solved cells share a digit and a
unit. -/
theorem pass1_true_iff (V : Nat → Nat) :
    ∀ (L : List Nat) (st : Pass1State),
      (∀ i ∈ L, (st.bd i).value = V i) →
      (∀ i ∈ L, V i ≤ 9) →
      ((pass1 L st).1 = true ↔
        ((∀ i ∈ L, V i ≠ 0 →
          (st.ru (idxRow i)).testBit (V i - 1) = false ∧
          (st.cu (idxCol i)).testBit (V i - 1) = false ∧
          (st.bu (idxBox i)).testBit (V i - 1) = false) ∧
        List.Pairwise (pairOk V) L)) := by
  intro L
  induction L with
  | nil => intro st hvals hv9; simp [pass1]
  | cons i rest ih =>
    intro st hvals hv9
    have hVi : (st.bd i).value = V i := hvals i (by simp)
    have hVi9 : V i ≤ 9 := hv9 i (by simp)
    have hV16 : V i ≤ 16 := by omega
    rw [pass1_cons, hVi]
    by_cases h0 : V i = 0
    · rw [if_pos h0,
        ih st (fun x hx => hvals x (by simp [hx])) (fun x hx => hv9 x (by simp [hx]))]
      constructor
      · rintro ⟨hacc, hpw⟩
        refine ⟨?_, List.pairwise_cons.mpr ⟨?_, hpw⟩⟩
        · intro x hx
          rcases List.mem_cons.mp hx with rfl | hx'
          · intro hvx; exact absurd h0 hvx
          · exact hacc x hx'
        · intro j hj hvi
          exact absurd h0 hvi
      · rintro ⟨hacc, hpw⟩
        exact ⟨fun x hx => hacc x (by simp [hx]), (List.pairwise_cons.mp hpw).2⟩
    · rw [if_neg h0, if_neg (by omega)]
      by_cases hr : st.ru (idxRow i) &&& digitToBit (V i) ≠ 0
      · rw [if_pos hr]
        simp only [Bool.false_eq_true, false_iff]
        rintro ⟨hacc, -⟩
        have := (hacc i (by simp) h0).1
        rw [(land_digitToBit_ne_zero hV16 _).mp hr] at this
        cases this
      · rw [if_neg hr]
        by_cases hc : st.cu (idxCol i) &&& digitToBit (V i) ≠ 0
        · rw [if_pos hc]
          simp only [Bool.false_eq_true, false_iff]
          rintro ⟨hacc, -⟩
          have := (hacc i (by simp) h0).2.1
          rw [(land_digitToBit_ne_zero hV16 _).mp hc] at this
          cases this
        · rw [if_neg hc]
          by_cases hb : st.bu (idxBox i) &&& digitToBit (V i) ≠ 0
          · rw [if_pos hb]
            simp only [Bool.false_eq_true, false_iff]
            rintro ⟨hacc, -⟩
            have := (hacc i (by simp) h0).2.2
            rw [(land_digitToBit_ne_zero hV16 _).mp hb] at this
            cases this
          · rw [if_neg hb]
            have hvals2 : ∀ x ∈ rest,
                ((setCandB st.bd i (digitToBit (V i))) x).value = V x := by
              intro x hx
              rw [setCandB_value]
              exact hvals x (by simp [hx])
            rw [ih _ hvals2 (fun x hx => hv9 x (by simp [hx]))]
            have hru0 : (st.ru (idxRow i)).testBit (V i - 1) = false :=
              (land_digitToBit_eq_zero hV16 _).mp (by omega)
            have hcu0 : (st.cu (idxCol i)).testBit (V i - 1) = false :=
              (land_digitToBit_eq_zero hV16 _).mp (by omega)
            have hbu0 : (st.bu (idxBox i)).testBit (V i - 1) = false :=
              (land_digitToBit_eq_zero hV16 _).mp (by omega)
            have hfr : ∀ x, V x ≠ 0 → V x ≤ 9 →
                (((updMask st.ru (idxRow i) (digitToBit (V i)) (idxRow x)).testBit
                    (V x - 1) = false ∧
                  (updMask st.cu (idxCol i) (digitToBit (V i)) (idxCol x)).testBit
                    (V x - 1) = false ∧
                  (updMask st.bu (idxBox i) (digitToBit (V i)) (idxBox x)).testBit
                    (V x - 1) = false) ↔
                (((st.ru (idxRow x)).testBit (V x - 1) = false ∧
                  (st.cu (idxCol x)).testBit (V x - 1) = false ∧
                  (st.bu (idxBox x)).testBit (V x - 1) = false) ∧ pairOk V i x)) := by
              intro x hx0 hx9
              unfold updMask pairOk sameUnit
              by_cases hrx : idxRow x = idxRow i <;>
                by_cases hcx : idxCol x = idxCol i <;>
                  by_cases hbx : idxBox x = idxBox i <;>
                    by_cases hvx : V x = V i <;>
                      simp [hrx, hcx, hbx, Nat.testBit_lor,
                        testBit_digitToBit hV16,
                        show (V x - 1 = V i - 1) ↔ (V x = V i) from by omega, hvx,
                        hx0, h0,
                        show (V i = V x) ↔ (V x = V i) from ⟨Eq.symm, Eq.symm⟩] <;>
                      tauto
            constructor
            · rintro ⟨hacc2, hpw⟩
              refine ⟨?_, List.pairwise_cons.mpr ⟨?_, hpw⟩⟩
              · intro x hx
                rcases List.mem_cons.mp hx with rfl | hx'
                · intro hx0
                  exact ⟨hru0, hcu0, hbu0⟩
                · intro hx0
                  exact ((hfr x hx0 (hv9 x (by simp [hx']))).mp (hacc2 x hx' hx0)).1
              · intro j hj hvi hvj hveq
                exact ((hfr j hvj (hv9 j (by simp [hj]))).mp (hacc2 j hj hvj)).2
                  hvi hvj hveq
            · rintro ⟨hacc, hpw⟩
              have hpwc := List.pairwise_cons.mp hpw
              refine ⟨?_, hpwc.2⟩
              intro x hx hx0
              exact (hfr x hx0 (hv9 x (by simp [hx]))).mpr
                ⟨hacc x (by simp [hx]) hx0, hpwc.1 x hx⟩

/-- On success, pass 1 leaves: used masks whose bits are the initial bits
plus one bit per listed solved cell in the matching unit, and a board
where exactly the listed solved cells had their mask collapsed to their
digit's bit. -/
theorem pass1_state (V : Nat → Nat) :
    ∀ (L : List Nat) (st : Pass1State),
      (∀ i ∈ L, (st.bd i).value = V i) →
      (∀ i ∈ L, V i ≤ 9) →
      (pass1 L st).1 = true →
      ((∀ r k, (((pass1 L st).2.ru r).testBit k = true ↔
        ((st.ru r).testBit k = true ∨ ∃ i ∈ L, V i ≠ 0 ∧ idxRow i = r ∧ V i - 1 = k))) ∧
      (∀ c k, (((pass1 L st).2.cu c).testBit k = true ↔
        ((st.cu c).testBit k = true ∨ ∃ i ∈ L, V i ≠ 0 ∧ idxCol i = c ∧ V i - 1 = k))) ∧
      (∀ bx k, (((pass1 L st).2.bu bx).testBit k = true ↔
        ((st.bu bx).testBit k = true ∨ ∃ i ∈ L, V i ≠ 0 ∧ idxBox i = bx ∧ V i - 1 = k))) ∧
      (∀ j, (pass1 L st).2.bd j =
        if j ∈ L ∧ V j ≠ 0 then ⟨V j, digitToBit (V j) &&& 511⟩ else st.bd j)) := by
  intro L
  induction L with
  | nil =>
    intro st hvals hv9 htrue
    refine ⟨fun r k => by simp [pass1], fun c k => by simp [pass1],
      fun bx k => by simp [pass1], fun j => by simp [pass1]⟩
  | cons i rest ih =>
    intro st hvals hv9 htrue
    have hVi : (st.bd i).value = V i := hvals i (by simp)
    have hVi9 : V i ≤ 9 := hv9 i (by simp)
    rw [pass1_cons, hVi] at htrue ⊢
    by_cases h0 : V i = 0
    · rw [if_pos h0] at htrue ⊢
      obtain ⟨hru, hcu, hbu, hbd⟩ := ih st (fun x hx => hvals x (by simp [hx]))
        (fun x hx => hv9 x (by simp [hx])) htrue
      refine ⟨fun r k => ?_, fun c k => ?_, fun bx k => ?_, fun j => ?_⟩
      · rw [hru r k]
        simp only [List.mem_cons]
        constructor
        · rintro (h | ⟨x, hx, hp⟩)
          · exact Or.inl h
          · exact Or.inr ⟨x, Or.inr hx, hp⟩
        · rintro (h | ⟨x, rfl | hx, hp⟩)
          · exact Or.inl h
          · exact absurd h0 hp.1
          · exact Or.inr ⟨x, hx, hp⟩
      · rw [hcu c k]
        simp only [List.mem_cons]
        constructor
        · rintro (h | ⟨x, hx, hp⟩)
          · exact Or.inl h
          · exact Or.inr ⟨x, Or.inr hx, hp⟩
        · rintro (h | ⟨x, rfl | hx, hp⟩)
          · exact Or.inl h
          · exact absurd h0 hp.1
          · exact Or.inr ⟨x, hx, hp⟩
      · rw [hbu bx k]
        simp only [List.mem_cons]
        constructor
        · rintro (h | ⟨x, hx, hp⟩)
          · exact Or.inl h
          · exact Or.inr ⟨x, Or.inr hx, hp⟩
        · rintro (h | ⟨x, rfl | hx, hp⟩)
          · exact Or.inl h
          · exact absurd h0 hp.1
          · exact Or.inr ⟨x, hx, hp⟩
      · rw [hbd j]
        by_cases hj : j ∈ rest ∧ V j ≠ 0
        · rw [if_pos hj, if_pos ⟨List.mem_cons_of_mem _ hj.1, hj.2⟩]
        · rw [if_neg hj, if_neg ?_]
          rintro ⟨hjm, hjv⟩
          rcases List.mem_cons.mp hjm with rfl | hjm'
          · exact hjv h0
          · exact hj ⟨hjm', hjv⟩
    · rw [if_neg h0, if_neg (by omega)] at htrue ⊢
      by_cases hr : st.ru (idxRow i) &&& digitToBit (V i) ≠ 0
      · rw [if_pos hr] at htrue; cases htrue
      · rw [if_neg hr] at htrue ⊢
        by_cases hc : st.cu (idxCol i) &&& digitToBit (V i) ≠ 0
        · rw [if_pos hc] at htrue; cases htrue
        · rw [if_neg hc] at htrue ⊢
          by_cases hb : st.bu (idxBox i) &&& digitToBit (V i) ≠ 0
          · rw [if_pos hb] at htrue; cases htrue
          · rw [if_neg hb] at htrue ⊢
            have hvals2 : ∀ x ∈ rest,
                ((setCandB st.bd i (digitToBit (V i))) x).value = V x := by
              intro x hx
              rw [setCandB_value]
              exact hvals x (by simp [hx])
            obtain ⟨hru, hcu, hbu, hbd⟩ := ih _ hvals2
              (fun x hx => hv9 x (by simp [hx])) htrue
            refine ⟨fun r k => ?_, fun c k => ?_, fun bx k => ?_, fun j => ?_⟩
            · rw [hru r k]
              show ((updMask st.ru (idxRow i) (digitToBit (V i)) r).testBit k = true ∨ _) ↔ _
              unfold updMask
              by_cases hri : r = idxRow i
              · subst hri
                rw [if_pos rfl]
                simp only [Nat.testBit_lor, testBit_digitToBit (show V i ≤ 16 by omega),
                  Bool.or_eq_true, decide_eq_true_eq, List.mem_cons]
                constructor
                · rintro ((h | h) | ⟨x, hx, hp⟩)
                  · exact Or.inl h
                  · exact Or.inr ⟨i, Or.inl rfl, h0, rfl, h.symm⟩
                  · exact Or.inr ⟨x, Or.inr hx, hp⟩
                · rintro (h | ⟨x, rfl | hx, hp⟩)
                  · exact Or.inl (Or.inl h)
                  · exact Or.inl (Or.inr hp.2.2.symm)
                  · exact Or.inr ⟨x, hx, hp⟩
              · rw [if_neg hri]
                simp only [List.mem_cons]
                constructor
                · rintro (h | ⟨x, hx, hp⟩)
                  · exact Or.inl h
                  · exact Or.inr ⟨x, Or.inr hx, hp⟩
                · rintro (h | ⟨x, rfl | hx, hp⟩)
                  · exact Or.inl h
                  · exact absurd hp.2.1 (fun hh => hri hh.symm)
                  · exact Or.inr ⟨x, hx, hp⟩
            · rw [hcu c k]
              show ((updMask st.cu (idxCol i) (digitToBit (V i)) c).testBit k = true ∨ _) ↔ _
              unfold updMask
              by_cases hci : c = idxCol i
              · subst hci
                rw [if_pos rfl]
                simp only [Nat.testBit_lor, testBit_digitToBit (show V i ≤ 16 by omega),
                  Bool.or_eq_true, decide_eq_true_eq, List.mem_cons]
                constructor
                · rintro ((h | h) | ⟨x, hx, hp⟩)
                  · exact Or.inl h
                  · exact Or.inr ⟨i, Or.inl rfl, h0, rfl, h.symm⟩
                  · exact Or.inr ⟨x, Or.inr hx, hp⟩
                · rintro (h | ⟨x, rfl | hx, hp⟩)
                  · exact Or.inl (Or.inl h)
                  · exact Or.inl (Or.inr hp.2.2.symm)
                  · exact Or.inr ⟨x, hx, hp⟩
              · rw [if_neg hci]
                simp only [List.mem_cons]
                constructor
                · rintro (h | ⟨x, hx, hp⟩)
                  · exact Or.inl h
                  · exact Or.inr ⟨x, Or.inr hx, hp⟩
                · rintro (h | ⟨x, rfl | hx, hp⟩)
                  · exact Or.inl h
                  · exact absurd hp.2.1 (fun hh => hci hh.symm)
                  · exact Or.inr ⟨x, hx, hp⟩
            · rw [hbu bx k]
              show ((updMask st.bu (idxBox i) (digitToBit (V i)) bx).testBit k = true ∨ _) ↔ _
              unfold updMask
              by_cases hbi : bx = idxBox i
              · subst hbi
                rw [if_pos rfl]
                simp only [Nat.testBit_lor, testBit_digitToBit (show V i ≤ 16 by omega),
                  Bool.or_eq_true, decide_eq_true_eq, List.mem_cons]
                constructor
                · rintro ((h | h) | ⟨x, hx, hp⟩)
                  · exact Or.inl h
                  · exact Or.inr ⟨i, Or.inl rfl, h0, rfl, h.symm⟩
                  · exact Or.inr ⟨x, Or.inr hx, hp⟩
                · rintro (h | ⟨x, rfl | hx, hp⟩)
                  · exact Or.inl (Or.inl h)
                  · exact Or.inl (Or.inr hp.2.2.symm)
                  · exact Or.inr ⟨x, hx, hp⟩
              · rw [if_neg hbi]
                simp only [List.mem_cons]
                constructor
                · rintro (h | ⟨x, hx, hp⟩)
                  · exact Or.inl h
                  · exact Or.inr ⟨x, Or.inr hx, hp⟩
                · rintro (h | ⟨x, rfl | hx, hp⟩)
                  · exact Or.inl h
                  · exact absurd hp.2.1 (fun hh => hbi hh.symm)
                  · exact Or.inr ⟨x, hx, hp⟩
            · rw [hbd j]
              by_cases hj : j ∈ rest ∧ V j ≠ 0
              · rw [if_pos hj, if_pos ⟨List.mem_cons_of_mem _ hj.1, hj.2⟩]
              · rw [if_neg hj]
                by_cases hji : j = i
                · subst hji
                  rw [if_pos ⟨by simp, h0⟩]
                  show setCandB st.bd j (digitToBit (V j)) j =
                    ⟨V j, digitToBit (V j) &&& 511⟩
                  unfold setCandB setCellAt Cell.setCandidateMask
                  rw [if_pos rfl]
                  exact cellExt _ _ hVi rfl
                · rw [if_neg ?_]
                  · show setCandB st.bd i (digitToBit (V i)) j = st.bd j
                    unfold setCandB setCellAt
                    rw [if_neg hji]
                  · rintro ⟨hjm, hjv⟩
                    rcases List.mem_cons.mp hjm with rfl | hjm'
                    · exact hji rfl
                    · exact hj ⟨hjm', hjv⟩

/-- Unfolding of one pass-2 step. -/
theorem pass2_cons (ru cu bu : Nat → Nat) (x : Nat) (rest : List Nat) (bd : Board) :
    pass2 ru cu bu (x :: rest) bd =
      if isSolvedB bd x then pass2 ru cu bu rest bd
      else if 511 &&& complement16 (ru (idxRow x) ||| cu (idxCol x) ||| bu (idxBox x)) = 0
        then (false, bd)
      else pass2 ru cu bu rest
        (setCandB bd x
          (511 &&& complement16 (ru (idxRow x) ||| cu (idxCol x) ||| bu (idxBox x)))) := rfl

/-- Pass 2 succeeds exactly when every listed empty cell is allowed a
nonzero mask, and on success it assigns exactly those masks, leaving
every other cell untouched. -/
theorem pass2_spec (ru cu bu V : Nat → Nat) :
    ∀ (L : List Nat) (bd : Board),
      (∀ i ∈ L, (bd i).value = V i) →
      (((pass2 ru cu bu L bd).1 = true ↔
        ∀ i ∈ L, V i = 0 →
          511 &&& complement16 (ru (idxRow i) ||| cu (idxCol i) ||| bu (idxBox i)) ≠ 0) ∧
      ((pass2 ru cu bu L bd).1 = true →
        ∀ j, (pass2 ru cu bu L bd).2 j =
          if j ∈ L ∧ V j = 0 then
            ⟨0, 511 &&& complement16 (ru (idxRow j) ||| cu (idxCol j) ||| bu (idxBox j))⟩
          else bd j)) := by
  intro L
  induction L with
  | nil =>
    intro bd hvals
    constructor
    · simp [pass2]
    · intro _ j
      simp [pass2]
  | cons x rest ih =>
    intro bd hvals
    have hVx : (bd x).value = V x := hvals x (by simp)
    rw [pass2_cons]
    by_cases hx0 : V x = 0
    · rw [if_neg (by simp [isSolvedB, hVx, hx0])]
      by_cases hall :
          511 &&& complement16 (ru (idxRow x) ||| cu (idxCol x) ||| bu (idxBox x)) = 0
      · rw [if_pos hall]
        constructor
        · simp only [Bool.false_eq_true, false_iff]
          intro hcontra
          exact absurd hall (hcontra x (by simp) hx0)
        · intro hcontra
          cases hcontra
      · rw [if_neg hall]
        have hvals2 : ∀ i ∈ rest,
            ((setCandB bd x
              (511 &&& complement16
                (ru (idxRow x) ||| cu (idxCol x) ||| bu (idxBox x)))) i).value = V i := by
          intro i hi
          rw [setCandB_value]
          exact hvals i (by simp [hi])
        obtain ⟨hiff, hstate⟩ := ih _ hvals2
        constructor
        · rw [hiff]
          constructor
          · intro h i hi hi0
            rcases List.mem_cons.mp hi with rfl | hi'
            · exact hall
            · exact h i hi' hi0
          · intro h i hi hi0
            exact h i (by simp [hi]) hi0
        · intro htrue j
          rw [hstate htrue j]
          by_cases hj : j ∈ rest ∧ V j = 0
          · rw [if_pos hj, if_pos ⟨List.mem_cons_of_mem _ hj.1, hj.2⟩]
          · rw [if_neg hj]
            by_cases hjx : j = x
            · subst hjx
              rw [if_pos ⟨by simp, hx0⟩]
              show setCandB bd j
                  (511 &&& complement16
                    (ru (idxRow j) ||| cu (idxCol j) ||| bu (idxBox j))) j = _
              unfold setCandB setCellAt Cell.setCandidateMask
              rw [if_pos rfl]
              refine cellExt _ _ ?_ ?_
              · exact hVx.trans hx0
              · show (511 &&& _) &&& 511 = _
                exact land511_of_lt
                  (Nat.lt_of_le_of_lt Nat.and_le_left (by norm_num))
            · rw [if_neg ?_]
              · show setCandB bd x _ j = bd j
                unfold setCandB setCellAt
                rw [if_neg hjx]
              · rintro ⟨hjm, hjv⟩
                rcases List.mem_cons.mp hjm with rfl | hjm'
                · exact hjx rfl
                · exact hj ⟨hjm', hjv⟩
    · rw [if_pos (by simp [isSolvedB, hVx, hx0])]
      obtain ⟨hiff, hstate⟩ := ih bd (fun i hi => hvals i (by simp [hi]))
      constructor
      · rw [hiff]
        constructor
        · intro h i hi hi0
          rcases List.mem_cons.mp hi with rfl | hi'
          · exact absurd hi0 hx0
          · exact h i hi' hi0
        · intro h i hi hi0
          exact h i (by simp [hi]) hi0
      · intro htrue j
        rw [hstate htrue j]
        by_cases hj : j ∈ rest ∧ V j = 0
        · rw [if_pos hj, if_pos ⟨List.mem_cons_of_mem _ hj.1, hj.2⟩]
        · rw [if_neg hj, if_neg ?_]
          rintro ⟨hjm, hjv⟩
          rcases List.mem_cons.mp hjm with rfl | hjm'
          · exact hx0 hjv
          · exact hj ⟨hjm', hjv⟩

/-- Bits of a guarded OR-fold. -/
theorem foldl_or_testBit (f : Nat → Nat) (p : Nat → Prop) [DecidablePred p] (k : Nat) :
    ∀ (L : List Nat) (init : Nat),
      ((L.foldl (fun a i => if p i then a ||| f i else a) init).testBit k = true) ↔
        (init.testBit k = true ∨ ∃ i ∈ L, p i ∧ (f i).testBit k = true) := by
  intro L
  induction L with
  | nil => simp
  | cons x L ih =>
    intro init
    rw [List.foldl_cons]
    by_cases hp : p x
    · rw [if_pos hp, ih]
      simp only [Nat.testBit_lor, Bool.or_eq_true, List.mem_cons]
      constructor
      · rintro ((h | h) | ⟨i, hi, hp2, hb⟩)
        · exact Or.inl h
        · exact Or.inr ⟨x, Or.inl rfl, hp, h⟩
        · exact Or.inr ⟨i, Or.inr hi, hp2, hb⟩
      · rintro (h | ⟨i, rfl | hi, hp2, hb⟩)
        · exact Or.inl (Or.inl h)
        · exact Or.inl (Or.inr hb)
        · exact Or.inr ⟨i, hi, hp2, hb⟩
    · rw [if_neg hp, ih]
      simp only [List.mem_cons]
      constructor
      · rintro (h | ⟨i, hi, hp2, hb⟩)
        · exact Or.inl h
        · exact Or.inr ⟨i, Or.inr hi, hp2, hb⟩
      · rintro (h | ⟨i, rfl | hi, hp2, hb⟩)
        · exact Or.inl h
        · exact absurd hp2 hp
        · exact Or.inr ⟨i, hi, hp2, hb⟩

/-- The digits used by solved cells of row `r` (the spec's `rowUsed`),
written as a fold over all 81 cells. -/
def usedRowSpec (b : Board) (r : Nat) : Nat :=
  (List.range 81).foldl
    (fun a i => if idxRow i = r ∧ (b i).value ≠ 0 then a ||| digitToBit ((b i).value)
      else a) 0

/-- The digits used by solved cells of column `c`. -/
def usedColSpec (b : Board) (c : Nat) : Nat :=
  (List.range 81).foldl
    (fun a i => if idxCol i = c ∧ (b i).value ≠ 0 then a ||| digitToBit ((b i).value)
      else a) 0

/-- The digits used by solved cells of box `bx`. -/
def usedBoxSpec (b : Board) (bx : Nat) : Nat :=
  (List.range 81).foldl
    (fun a i => if idxBox i = bx ∧ (b i).value ≠ 0 then a ||| digitToBit ((b i).value)
      else a) 0

/-- The mask `0x1FF & ~(rowUsed | colUsed | boxUsed)` of a cell. -/
def specMask (b : Board) (i : Nat) : Nat :=
  511 &&& complement16
    (usedRowSpec b (idxRow i) ||| usedColSpec b (idxCol i) ||| usedBoxSpec b (idxBox i))

/-- No digit occurs twice among the solved cells of any row, column or
box. -/
def solvedConflictFree (b : Board) : Prop :=
  ∀ i, i < 81 → ∀ j, j < 81 → i ≠ j → (b i).value ≠ 0 → (b j).value ≠ 0 →
    (b i).value = (b j).value → ¬ sameUnit i j

instance (b : Board) : Decidable (solvedConflictFree b) :=
  @Nat.decidableBallLT 81
    (fun i _ => ∀ j, j < 81 → i ≠ j → (b i).value ≠ 0 → (b j).value ≠ 0 →
      (b i).value = (b j).value → ¬ sameUnit i j)
    (fun i _ =>
      @Nat.decidableBallLT 81
        (fun j _ => i ≠ j → (b i).value ≠ 0 → (b j).value ≠ 0 →
          (b i).value = (b j).value → ¬ sameUnit i j)
        (fun j _ => inferInstance))

/-- `sameUnit` is symmetric. -/
theorem sameUnit_symm {i j : Nat} (h : sameUnit i j) : sameUnit j i := by
  unfold sameUnit at h ⊢
  tauto

/-- Pairwise over `List.range n` is the ordered double quantifier. -/
theorem pairwise_range_iff (R : Nat → Nat → Prop) (n : Nat) :
    List.Pairwise R (List.range n) ↔ ∀ i j, i < j → j < n → R i j := by
  rw [List.pairwise_iff_get]
  constructor
  · intro h i j hij hj
    have hi : i < (List.range n).length := by simp; omega
    have hj' : j < (List.range n).length := by simp [hj]
    have := h ⟨i, hi⟩ ⟨j, hj'⟩ hij
    simpa using this
  · intro h fi fj hlt
    have h1 : (List.range n).get fi = fi.val := by simp
    have h2 : (List.range n).get fj = fj.val := by simp
    rw [h1, h2]
    exact h fi.val fj.val hlt (by have := fj.isLt; simpa using this)

/-- The pass-1 pairwise relation over the 81 cells is exactly
conflict-freedom of the solved cells. -/
theorem pairwise_pairOk_iff (b : Board) :
    List.Pairwise (pairOk (fun i => (b i).value)) (List.range 81) ↔
      solvedConflictFree b := by
  rw [pairwise_range_iff]
  constructor
  · intro h i hi j hj hne hvi hvj hveq
    rcases Nat.lt_or_ge i j with hij | hge
    · exact h i j hij hj hvi hvj hveq
    · have hji : j < i := by omega
      intro hsu
      exact h j i hji hi hvj hvi hveq.symm (sameUnit_symm hsu)
  · intro h i j hij hj hvi hvj hveq
    exact h i (by omega) j hj (by omega) hvi hvj hveq

/-- Booleans with equivalent truth are equal. -/
theorem bool_eq_of_iff {x y : Bool} (h : x = true ↔ y = true) : x = y := by
  cases x <;> cases y <;> simp_all

/-- Bits of the spec-side row used mask. -/
theorem usedRowSpec_testBit (b : Board) (hv : ∀ i, i < 81 → (b i).value ≤ 9)
    (r k : Nat) :
    ((usedRowSpec b r).testBit k = true) ↔
      ∃ i ∈ List.range 81, (b i).value ≠ 0 ∧ idxRow i = r ∧ (b i).value - 1 = k := by
  unfold usedRowSpec
  rw [foldl_or_testBit]
  constructor
  · rintro (h | ⟨i, hi, ⟨hr, hv0⟩, hb⟩)
    · rw [Nat.zero_testBit] at h; cases h
    · have h9 : (b i).value ≤ 9 := hv i (List.mem_range.mp hi)
      rw [testBit_digitToBit (by omega)] at hb
      exact ⟨i, hi, hv0, hr, by simpa [eq_comm] using hb⟩
  · rintro ⟨i, hi, hv0, hr, hk⟩
    have h9 : (b i).value ≤ 9 := hv i (List.mem_range.mp hi)
    refine Or.inr ⟨i, hi, ⟨hr, hv0⟩, ?_⟩
    rw [testBit_digitToBit (by omega)]
    simp [hk]

/-- Bits of the spec-side column used mask. -/
theorem usedColSpec_testBit (b : Board) (hv : ∀ i, i < 81 → (b i).value ≤ 9)
    (c k : Nat) :
    ((usedColSpec b c).testBit k = true) ↔
      ∃ i ∈ List.range 81, (b i).value ≠ 0 ∧ idxCol i = c ∧ (b i).value - 1 = k := by
  unfold usedColSpec
  rw [foldl_or_testBit]
  constructor
  · rintro (h | ⟨i, hi, ⟨hr, hv0⟩, hb⟩)
    · rw [Nat.zero_testBit] at h; cases h
    · have h9 : (b i).value ≤ 9 := hv i (List.mem_range.mp hi)
      rw [testBit_digitToBit (by omega)] at hb
      exact ⟨i, hi, hv0, hr, by simpa [eq_comm] using hb⟩
  · rintro ⟨i, hi, hv0, hr, hk⟩
    have h9 : (b i).value ≤ 9 := hv i (List.mem_range.mp hi)
    refine Or.inr ⟨i, hi, ⟨hr, hv0⟩, ?_⟩
    rw [testBit_digitToBit (by omega)]
    simp [hk]

/-- Bits of the spec-side box used mask. -/
theorem usedBoxSpec_testBit (b : Board) (hv : ∀ i, i < 81 → (b i).value ≤ 9)
    (bx k : Nat) :
    ((usedBoxSpec b bx).testBit k = true) ↔
      ∃ i ∈ List.range 81, (b i).value ≠ 0 ∧ idxBox i = bx ∧ (b i).value - 1 = k := by
  unfold usedBoxSpec
  rw [foldl_or_testBit]
  constructor
  · rintro (h | ⟨i, hi, ⟨hr, hv0⟩, hb⟩)
    · rw [Nat.zero_testBit] at h; cases h
    · have h9 : (b i).value ≤ 9 := hv i (List.mem_range.mp hi)
      rw [testBit_digitToBit (by omega)] at hb
      exact ⟨i, hi, hv0, hr, by simpa [eq_comm] using hb⟩
  · rintro ⟨i, hi, hv0, hr, hk⟩
    have h9 : (b i).value ≤ 9 := hv i (List.mem_range.mp hi)
    refine Or.inr ⟨i, hi, ⟨hr, hv0⟩, ?_⟩
    rw [testBit_digitToBit (by omega)]
    simp [hk]

/-- C8: the candidate recompute run at import succeeds if and only if no
digit occurs twice among the solved cells of any row, column or box and
every unsolved cell is left a nonzero mask
`0x1FF & ~(rowUsed | colUsed | boxUsed)`; on success every unsolved
cell's mask equals that expression and every solved cell's mask equals its
digit's bit (values beyond 9 cannot arise from the 0-9 cell data model and
are excluded by hypothesis). -/
theorem recalc_characterization (b : Board)
    (hv : ∀ i, i < 81 → (b i).value ≤ 9) :
    ((recalcAllCandidatesFromValues b).1 = true ↔
      (solvedConflictFree b ∧ ∀ i, i < 81 → (b i).value = 0 → specMask b i ≠ 0)) ∧
    ((recalcAllCandidatesFromValues b).1 = true →
      ∀ i, i < 81 →
        ((b i).value ≠ 0 →
          (recalcAllCandidatesFromValues b).2 i =
            ⟨(b i).value, digitToBit ((b i).value)⟩) ∧
        ((b i).value = 0 →
          (recalcAllCandidatesFromValues b).2 i = ⟨0, specMask b i⟩)) := by
  have hv9 : ∀ i ∈ List.range 81, (b i).value ≤ 9 :=
    fun i hi => hv i (List.mem_range.mp hi)
  have hvals0 : ∀ i ∈ List.range 81,
      (((fun i => if i < 81 then (b i).setCandidateMask 0 else b i) : Board) i).value
        = (b i).value := by
    intro i hi
    have hi81 : i < 81 := List.mem_range.mp hi
    simp [hi81, Cell.setCandidateMask]
  rcases hp : pass1 (List.range 81)
      ⟨fun _ => 0, fun _ => 0, fun _ => 0,
        fun i => if i < 81 then (b i).setCandidateMask 0 else b i⟩ with ⟨flag, st⟩
  have hrec : recalcAllCandidatesFromValues b =
      match (flag, st) with
      | (false, st) => (false, st.bd)
      | (true, st) => pass2 st.ru st.cu st.bu (List.range 81) st.bd := by
    unfold recalcAllCandidatesFromValues
    dsimp only
    rw [hp]
  have hiff1 := pass1_true_iff (fun i => (b i).value) (List.range 81)
    ⟨fun _ => 0, fun _ => 0, fun _ => 0,
      fun i => if i < 81 then (b i).setCandidateMask 0 else b i⟩ hvals0 hv9
  cases flag with
  | false =>
    rw [hrec]
    dsimp only
    constructor
    · constructor
      · intro h; cases h
      · rintro ⟨hscf, -⟩
        have hcontra : (pass1 (List.range 81)
            ⟨fun _ => 0, fun _ => 0, fun _ => 0,
              fun i => if i < 81 then (b i).setCandidateMask 0 else b i⟩).1 = true := by
          rw [hiff1]
          exact ⟨fun i hi hvi =>
            ⟨Nat.zero_testBit _, Nat.zero_testBit _, Nat.zero_testBit _⟩,
            (pairwise_pairOk_iff b).mpr hscf⟩
        rw [hp] at hcontra
        cases hcontra
    · intro h; cases h
  | true =>
    have htrue : (pass1 (List.range 81)
        ⟨fun _ => 0, fun _ => 0, fun _ => 0,
          fun i => if i < 81 then (b i).setCandidateMask 0 else b i⟩).1 = true := by
      rw [hp]
    obtain ⟨hru, hcu, hbu, hbd⟩ :=
      pass1_state (fun i => (b i).value) (List.range 81)
        ⟨fun _ => 0, fun _ => 0, fun _ => 0,
          fun i => if i < 81 then (b i).setCandidateMask 0 else b i⟩ hvals0 hv9 htrue
    rw [hp] at hru hcu hbu hbd
    have hscf : solvedConflictFree b :=
      (pairwise_pairOk_iff b).mp (hiff1.mp htrue).2
    have hruE : ∀ r, st.ru r = usedRowSpec b r := by
      intro r
      refine Nat.eq_of_testBit_eq fun k => bool_eq_of_iff ?_
      rw [show ((st.ru r).testBit k = true) ↔ _ from hru r k,
        usedRowSpec_testBit b hv r k]
      simp [Nat.zero_testBit]
    have hcuE : ∀ c, st.cu c = usedColSpec b c := by
      intro c
      refine Nat.eq_of_testBit_eq fun k => bool_eq_of_iff ?_
      rw [show ((st.cu c).testBit k = true) ↔ _ from hcu c k,
        usedColSpec_testBit b hv c k]
      simp [Nat.zero_testBit]
    have hbuE : ∀ bx, st.bu bx = usedBoxSpec b bx := by
      intro bx
      refine Nat.eq_of_testBit_eq fun k => bool_eq_of_iff ?_
      rw [show ((st.bu bx).testBit k = true) ↔ _ from hbu bx k,
        usedBoxSpec_testBit b hv bx k]
      simp [Nat.zero_testBit]
    have husedE : ∀ i, 511 &&& complement16
        (st.ru (idxRow i) ||| st.cu (idxCol i) ||| st.bu (idxBox i)) = specMask b i := by
      intro i
      unfold specMask
      rw [hruE, hcuE, hbuE]
    have hvals2 : ∀ i ∈ List.range 81, (st.bd i).value = (b i).value := by
      intro i hi
      rw [show st.bd i = _ from hbd i]
      by_cases hcase : i ∈ List.range 81 ∧ (b i).value ≠ 0
      · rw [if_pos hcase]
      · rw [if_neg hcase]
        exact hvals0 i hi
    obtain ⟨hp2iff, hp2state⟩ :=
      pass2_spec st.ru st.cu st.bu (fun i => (b i).value) (List.range 81) st.bd hvals2
    constructor
    · rw [hrec]
      dsimp only
      rw [hp2iff]
      constructor
      · intro h
        refine ⟨hscf, fun i hi hv0 => ?_⟩
        rw [← husedE i]
        exact h i (List.mem_range.mpr hi) hv0
      · rintro ⟨-, hmask⟩ i hi hv0
        rw [husedE i]
        exact hmask i (List.mem_range.mp hi) hv0
    · rw [hrec]
      dsimp only
      intro htrue2 i hi
      have hst := hp2state htrue2 i
      constructor
      · intro hvi
        rw [hst, if_neg (by rintro ⟨-, h0⟩; exact hvi h0),
          show st.bd i = _ from hbd i, if_pos ⟨List.mem_range.mpr hi, hvi⟩,
          land511_of_lt (digitToBit_lt_512 (hv i hi))]
      · intro hvi
        rw [hst, if_pos ⟨List.mem_range.mpr hi, hvi⟩, husedE i]

/-- C8 (witness): the recompute characterization applied to the concrete
wellformed board. -/
theorem recalc_characterization_witness :
    (∀ i, i < 81 → (bWit i).value ≤ 9) ∧
      ((recalcAllCandidatesFromValues bWit).1 = true ↔
        (solvedConflictFree bWit ∧
          ∀ i, i < 81 → (bWit i).value = 0 → specMask bWit i ≠ 0)) :=
  ⟨by decide, (recalc_characterization bWit (by decide)).1⟩
